import Mathlib

/-!
Verification of the `bgit` core: branch-base resolution, a persistent
content-addressed tree-upsert engine, and the commit-building pipeline,
shallowly embedded from `src/main.rs`.

The Object Store is an external collaborator (libgit2).  Following the
data model of the specification, object identity is a pure function of
object content, so an object id is modelled as the object's canonical
content itself: a blob id is an abstract content digest and a tree id is
its canonically sorted entry list.  Two trees with identical entry sets
then have identical identity by construction, which is exactly the
content-addressing guarantee the store provides.
-/

/-- An object id in the content-addressed store.  `blob h` stands for a
blob whose content digest is `h`; `tree entries` is a tree identified by
its (canonically ordered) entries.  Each entry is
`(name, filemode, target)`, mirroring git tree entries. -/
inductive Oid where
  | blob (digest : Nat)
  | tree (entries : List (String × Int × Oid))

/-- A git tree entry: `(name, filemode, target)`. -/
abbrev Entry := String × Int × Oid

/-- Modelled from the spec: git's canonical tree-entry sort key compares
names bytewise, with a directory entry sorting as if its name had a
trailing slash.  Directory mode is `0o040000 = 16384`. -/
def gitKey (e : Entry) : String :=
  if e.2.1 = 16384 then e.1 ++ "/" else e.1

/-- Bytewise ordering on character lists (names are compared as byte
sequences by git). -/
def keyLe : List Char → List Char → Bool
  | [], _ => true
  | _ :: _, [] => false
  | c :: cs, d :: ds =>
    if c.val < d.val then true
    else if d.val < c.val then false
    else keyLe cs ds

/-- Ordering of tree entries by their canonical git sort key. -/
def entryLe (a b : Entry) : Bool :=
  keyLe (gitKey a).data (gitKey b).data

/-- Insert an entry into a sorted entry list, keeping it sorted. -/
def insertSorted (e : Entry) : List Entry → List Entry
  | [] => [e]
  | x :: xs => if entryLe e x then e :: x :: xs else x :: insertSorted e xs

/-- Canonical ordering of a tree's entries (insertion sort by git key). -/
def sortEntries : List Entry → List Entry
  | [] => []
  | x :: xs => insertSorted x (sortEntries xs)

/-- Modelled from the spec: `TreeBuilder.insert` upserts an entry by
name — it replaces an existing entry with the given name, or adds the
entry if the name is absent.  Argument order mirrors
`tb.insert(name, oid, filemode)`. -/
def tbInsert (entries : List Entry) (name : String) (oid : Oid) (filemode : Int) :
    List Entry :=
  match entries with
  | [] => [(name, filemode, oid)]
  | e :: rest =>
    if e.1 = name then (name, filemode, oid) :: rest
    else e :: tbInsert rest name oid filemode

/-- Modelled from the spec: `TreeBuilder.write` produces the id of the
tree with the builder's entries; the id is a pure function of the
canonically sorted entry set (content addressing). -/
def tbWrite (entries : List Entry) : Oid :=
  Oid.tree (sortEntries entries)

/-- `Tree.get_name`: look up the entry with the given name. -/
def getName (entries : List Entry) (name : String) : Option Entry :=
  entries.find? (fun e => e.1 == name)

/-- The subtree-resolution step of `upsert_components` (lines 306-314 of
`main.rs`): the existing entry named `name`, if present and itself a
tree, yields its entries; a missing entry or a blob entry yields
nothing. -/
def subtreeAt (entries : List Entry) (name : String) : Option (List Entry) :=
  match getName entries name with
  | some e =>
    match e.2.2 with
    | Oid.tree sub => some sub
    | Oid.blob _ => none
  | none => none

/-- Same resolution starting from an optional base tree. -/
def subtreeAtOpt : Option (List Entry) → String → Option (List Entry)
  | some t, name => subtreeAt t name
  | none, _ => none

/-- `upsert_components` from `main.rs` (lines 279-329).  Returns the
result of the recursion together with the list of tree ids written to
the store, in write order (a failure writes nothing).  With exactly one
component left, the blob is inserted under that name into the base
entries (empty if no base) and the tree is written.  Otherwise the first
component names a directory: the child recursion starts from the
existing same-named subtree if there is one, the current level is
rebuilt from the base entries with the directory entry upserted at
directory mode `0o040000`, and the tree is written. -/
def upsert_components (base_tree : Option (List Entry)) (comps : List String)
    (blob_oid : Oid) (filemode : Int) : Except String Oid × List Oid :=
  match comps with
  | [] => (.error "No components", [])
  | [name] =>
    let t := tbWrite (tbInsert (base_tree.getD []) name blob_oid filemode)
    (.ok t, [t])
  | name :: rest =>
    match upsert_components (subtreeAtOpt base_tree name) rest blob_oid filemode with
    | (.error e, ws) => (.error e, ws)
    | (.ok child_oid, ws) =>
      let t := tbWrite (tbInsert (base_tree.getD []) name child_oid 16384)
      (.ok t, ws ++ [t])

/-- `upsert_path_into_tree` from `main.rs` (lines 257-277): the path is
already split into components; an empty component sequence fails with
the empty-path error, otherwise the recursion starts with the base tree
present. -/
def upsert_path_into_tree (base_tree : List Entry) (comps : List String)
    (blob_oid : Oid) (filemode : Int) : Except String Oid × List Oid :=
  if comps.isEmpty then (.error "Empty path", [])
  else upsert_components (some base_tree) comps blob_oid filemode

/-- Filemode selection from `main.rs` lines 113-115: executable iff any
execute permission bit is set. -/
def filemode_of_permissions (perm : Nat) : Int :=
  if perm &&& 0o111 ≠ 0 then 0o100755 else 0o100644

/-- Names of a tree's entries are unique (spec invariant on trees). -/
def uniqNames (entries : List Entry) : Prop :=
  (entries.map (fun e => e.1)).Nodup

/-- Unique entry names hold at every tree along the root-to-leaf chain
named by the component list (the spec's invariant on store trees,
restricted to the trees the recursion actually reads). -/
def chainUniq : List Entry → List String → Prop
  | _, [] => True
  | T, name :: rest =>
    uniqNames T ∧
      match subtreeAt T name with
      | some S => chainUniq S rest
      | none => True

/-- Off-chain preservation: every entry whose name is not the current
path component is present, with identical name, mode and target
identity, in the rebuilt tree — and recursively so inside the subtree
the path descends into. -/
def offChain : List Entry → List String → List Entry → Prop
  | _, [], _ => True
  | T, [name], R => ∀ e ∈ T, e.1 ≠ name → e ∈ R
  | T, name :: rest, R =>
    (∀ e ∈ T, e.1 ≠ name → e ∈ R) ∧
      match subtreeAt T name, subtreeAt R name with
      | some S, some Ssub => offChain S rest Ssub
      | _, _ => True

-- Branch resolution, identity and the commit pipeline.

/-- Error kinds of the operation (spec section 7).  `EmptyPath` carries
the source's error message for the empty-path failure of the upsert
engine. -/
inductive BgitError where
  | BranchNotFound
  | IdentityMissing
  | PushFailure
  | EmptyPath (msg : String)

/-- A commit object.  Identity is a pure function of all fields
(including message and timestamp), so a commit id is modelled as the
commit's content; parent commits are embedded by identity. -/
inductive Commit where
  | mk (tree : Oid) (parents : List Commit)
      (authorName authorEmail committerName committerEmail message : String)
      (timestamp : Int)

def Commit.tree : Commit → Oid
  | .mk t _ _ _ _ _ _ _ => t

def Commit.parents : Commit → List Commit
  | .mk _ p _ _ _ _ _ _ => p

def Commit.authorName : Commit → String
  | .mk _ _ an _ _ _ _ _ => an

def Commit.authorEmail : Commit → String
  | .mk _ _ _ ae _ _ _ _ => ae

def Commit.committerName : Commit → String
  | .mk _ _ _ _ cn _ _ _ => cn

def Commit.committerEmail : Commit → String
  | .mk _ _ _ _ _ ce _ _ => ce

def Commit.message : Commit → String
  | .mk _ _ _ _ _ _ m _ => m

def Commit.timestamp : Commit → Int
  | .mk _ _ _ _ _ _ _ ts => ts

/-- The mutable ref namespaces and the current head.  `localRefs` holds
`refs/heads/<name>` entries, `remoteRefs` the `refs/remotes/origin/<name>`
entries as visible after the optional fetch (fetch failures are swallowed
by the source, so only the resulting ref table matters).  Refs map names
to commit ids, here commit contents. -/
structure RepoState where
  localRefs : List (String × Commit)
  remoteRefs : List (String × Commit)
  headCommit : Commit

/-- `find_reference` on a ref table. -/
def lookupRef (refs : List (String × Commit)) (name : String) : Option Commit :=
  (refs.find? (fun r => r.1 == name)).map (fun r => r.2)

/-- Create or move a branch ref (`repo.branch` / the ref update performed
by `repo.commit(Some(refname), ..)`): the new binding shadows any
previous one. -/
def setRef (repo : RepoState) (branch : String) (c : Commit) : RepoState :=
  { repo with localRefs := (branch, c) :: repo.localRefs }

/-- `ensure_branch_base` from `main.rs` (lines 188-247): local branch
first; else, when tracking, the remote-tracking ref (creating the local
branch at that commit); else prompt for creation from head, failing with
`BranchNotFound` when declined.  Returns the resolved
`(commit, tree id)` and the possibly updated ref state. -/
def ensure_branch_base (repo : RepoState) (branch : String)
    (track_remote confirm : Bool) :
    Except BgitError (Commit × Oid) × RepoState :=
  match lookupRef repo.localRefs branch with
  | some c => (.ok (c, c.tree), repo)
  | none =>
    match (if track_remote then lookupRef repo.remoteRefs branch else none) with
    | some c => (.ok (c, c.tree), setRef repo branch c)
    | none =>
      if confirm then
        (.ok (repo.headCommit, repo.headCommit.tree), setRef repo branch repo.headCommit)
      else (.error .BranchNotFound, repo)

/-- Layered git configuration: `user.name` / `user.email` at one scope. -/
structure GitConfig where
  userName : Option String
  userEmail : Option String

/-- `git_user_name` from `main.rs` (lines 172-178): repository-scoped
configuration first, falling back to the global configuration. -/
def git_user_name (repoCfg globalCfg : GitConfig) : Except BgitError String :=
  match repoCfg.userName with
  | some n => .ok n
  | none =>
    match globalCfg.userName with
    | some n => .ok n
    | none => .error .IdentityMissing

/-- `git_user_email` from `main.rs` (lines 180-186). -/
def git_user_email (repoCfg globalCfg : GitConfig) : Except BgitError String :=
  match repoCfg.userEmail with
  | some e => .ok e
  | none =>
    match globalCfg.userEmail with
    | some e => .ok e
    | none => .error .IdentityMissing

/-- Entries of a tree id (`find_tree`; total here because tree ids carry
their entries). -/
def oidEntries : Oid → List Entry
  | .tree es => es
  | .blob _ => []

/-- `commit_to_branch` from `main.rs` (lines 75-169), starting after the
external steps (repository discovery, file read, blob write and path
relativization, whose outcomes enter as `comps`, `blobOid` and `perm`):
resolve the branch base, upsert the blob into the base tree, resolve the
identity, build the commit (author = committer, message defaulting to
"Update <path>", single parent) while moving the branch ref to it, then
optionally push, reporting a push failure after the ref was already
moved. -/
def commit_to_branch (repo : RepoState) (branch : String) (comps : List String)
    (blobOid : Oid) (perm : Nat) (msgOpt : Option String)
    (pushFlag track_remote confirm pushOk : Bool)
    (repoCfg globalCfg : GitConfig) (timestamp : Int) :
    Except BgitError Commit × RepoState :=
  match ensure_branch_base repo branch track_remote confirm with
  | (.error e, r1) => (.error e, r1)
  | (.ok (parentCommit, parentTreeOid), r1) =>
    let filemode := filemode_of_permissions perm
    match upsert_path_into_tree (oidEntries parentTreeOid) comps blobOid filemode with
    | (.error e, _) => (.error (.EmptyPath e), r1)
    | (.ok newTreeOid, _) =>
      match git_user_name repoCfg globalCfg, git_user_email repoCfg globalCfg with
      | .error e, _ => (.error e, r1)
      | .ok _, .error e => (.error e, r1)
      | .ok uname, .ok uemail =>
        let message := msgOpt.getD ("Update " ++ String.intercalate "/" comps)
        let newCommit :=
          Commit.mk newTreeOid [parentCommit] uname uemail uname uemail message timestamp
        let r2 := setRef r1 branch newCommit
        if pushFlag && !pushOk then (.error .PushFailure, r2) else (.ok newCommit, r2)

/-- A small concrete store and repository used to instantiate the
theorems on closed inputs. -/
def sampleTree : Oid := Oid.tree [("a.txt", 33188, Oid.blob 1)]

def sampleHead : Commit :=
  Commit.mk sampleTree [] "Ada" "ada@example.org" "Ada" "ada@example.org" "init" 0

def sampleRepo : RepoState :=
  { localRefs := [], remoteRefs := [], headCommit := sampleHead }

def sampleRepoWithRemote : RepoState :=
  { localRefs := [], remoteRefs := [("feature", sampleHead)], headCommit := sampleHead }

def sampleRepoWithLocal : RepoState :=
  { localRefs := [("main", sampleHead)], remoteRefs := [], headCommit := sampleHead }

def sampleCfgNoName : GitConfig :=
  { userName := none, userEmail := some "ada@example.org" }

def sampleCfg : GitConfig :=
  { userName := some "Ada", userEmail := some "ada@example.org" }

-- Basic permutation facts about the canonical sort.

theorem insertSorted_perm (e : Entry) (l : List Entry) :
    List.Perm (insertSorted e l) (e :: l) := by
  induction l with
  | nil => simp [insertSorted]
  | cons x xs ih =>
    simp only [insertSorted]
    by_cases h : entryLe e x = true
    · simp [h]
    · simp only [h, if_false]
      exact (ih.cons x).trans (List.Perm.swap e x xs)

theorem sortEntries_perm (l : List Entry) : List.Perm (sortEntries l) l := by
  induction l with
  | nil => simp [sortEntries]
  | cons x xs ih =>
    exact (insertSorted_perm x (sortEntries xs)).trans (ih.cons x)

theorem mem_sortEntries {e : Entry} {l : List Entry} :
    e ∈ sortEntries l ↔ e ∈ l :=
  (sortEntries_perm l).mem_iff

theorem uniqNames_sortEntries {l : List Entry} (h : uniqNames l) :
    uniqNames (sortEntries l) := by
  unfold uniqNames at h ⊢
  exact (((sortEntries_perm l).map (fun e => e.1)).nodup_iff).mpr h

-- Facts about the treebuilder upsert.

theorem mem_tbInsert_self (l : List Entry) (name : String) (oid : Oid) (m : Int) :
    (name, m, oid) ∈ tbInsert l name oid m := by
  induction l with
  | nil => simp [tbInsert]
  | cons x xs ih =>
    simp only [tbInsert]
    by_cases h : x.1 = name
    · simp [h]
    · simp [h, ih]

theorem mem_tbInsert_of_ne {e : Entry} {l : List Entry} {name : String}
    {oid : Oid} {m : Int} (hmem : e ∈ l) (hne : e.1 ≠ name) :
    e ∈ tbInsert l name oid m := by
  induction l with
  | nil => cases hmem
  | cons x xs ih =>
    simp only [tbInsert]
    rcases List.mem_cons.mp hmem with rfl | hx
    · have : ¬ e.1 = name := hne
      simp [this]
    · by_cases h : x.1 = name
      · simp only [h, if_true]
        exact List.mem_cons_of_mem _ hx
      · simp only [h, if_false]
        exact List.mem_cons_of_mem _ (ih hx)

theorem names_mem_tbInsert {a : String} {l : List Entry} {name : String}
    {oid : Oid} {m : Int}
    (h : a ∈ (tbInsert l name oid m).map (fun e => e.1)) :
    a = name ∨ a ∈ l.map (fun e => e.1) := by
  induction l with
  | nil =>
    simp only [tbInsert, List.map_cons, List.map_nil, List.mem_singleton] at h
    exact Or.inl h
  | cons x xs ih =>
    simp only [tbInsert] at h
    by_cases hx : x.1 = name
    · simp only [hx, if_true, List.map_cons, List.mem_cons] at h
      rcases h with rfl | h
      · exact Or.inl rfl
      · exact Or.inr (by
          rw [List.map_cons]
          exact List.mem_cons_of_mem _ h)
    · simp only [hx, if_false, List.map_cons, List.mem_cons] at h
      rcases h with rfl | h
      · exact Or.inr (by
          rw [List.map_cons]
          exact List.mem_cons_self _ _)
      · rcases ih h with rfl | h2
        · exact Or.inl rfl
        · exact Or.inr (by
            rw [List.map_cons]
            exact List.mem_cons_of_mem _ h2)

theorem uniqNames_tbInsert {l : List Entry} (name : String) (oid : Oid) (m : Int)
    (h : uniqNames l) : uniqNames (tbInsert l name oid m) := by
  induction l with
  | nil => simp [tbInsert, uniqNames]
  | cons x xs ih =>
    simp only [uniqNames, List.map_cons, List.nodup_cons] at h
    obtain ⟨hx, hxs⟩ := h
    simp only [tbInsert]
    by_cases hxname : x.1 = name
    · simp only [hxname, if_true, uniqNames, List.map_cons, List.nodup_cons]
      exact ⟨hxname ▸ hx, hxs⟩
    · simp only [hxname, if_false, uniqNames, List.map_cons, List.nodup_cons]
      refine ⟨fun hmem => ?_, ih hxs⟩
      rcases names_mem_tbInsert hmem with rfl | h2
      · exact hxname rfl
      · exact hx h2

theorem eq_of_mem_tbInsert_name {e : Entry} {l : List Entry} {name : String}
    {oid : Oid} {m : Int} (hu : uniqNames l)
    (hmem : e ∈ tbInsert l name oid m) (hname : e.1 = name) :
    e = (name, m, oid) := by
  induction l with
  | nil =>
    simp only [tbInsert, List.mem_singleton] at hmem
    exact hmem
  | cons x xs ih =>
    simp only [uniqNames, List.map_cons, List.nodup_cons] at hu
    obtain ⟨hx, hxs⟩ := hu
    simp only [tbInsert] at hmem
    by_cases hxname : x.1 = name
    · simp only [hxname, if_true, List.mem_cons] at hmem
      rcases hmem with rfl | hmem
      · rfl
      · exfalso
        exact hx (hxname ▸ (hname ▸ List.mem_map_of_mem (fun e => e.1) hmem))
    · simp only [hxname, if_false, List.mem_cons] at hmem
      rcases hmem with rfl | hmem
      · exact absurd hname hxname
      · exact ih hxs hmem

theorem getName_eq_some_of_mem {l : List Entry} {name : String} {m : Int}
    {t : Oid} (hu : uniqNames l) (hmem : (name, m, t) ∈ l) :
    getName l name = some (name, m, t) := by
  induction l with
  | nil => cases hmem
  | cons x xs ih =>
    simp only [uniqNames, List.map_cons, List.nodup_cons] at hu
    obtain ⟨hx, hxs⟩ := hu
    simp only [getName, List.find?]
    by_cases hxname : x.1 = name
    · have : (x.1 == name) = true := by simp [hxname]
      rw [this]
      rcases List.mem_cons.mp hmem with heq | hmem
      · rw [← heq]
      · exfalso
        exact hx (hxname ▸ List.mem_map_of_mem (fun e => e.1) hmem)
    · have : (x.1 == name) = false := by simp [hxname]
      rw [this]
      rcases List.mem_cons.mp hmem with heq | hmem
      · exact absurd (congrArg (fun e => e.1) heq.symm) hxname
      · exact ih hxs hmem

-- Totality of the recursion on non-empty component lists.

theorem upsert_components_ok (comps : List String) (base : Option (List Entry))
    (blob : Oid) (mode : Int) (hne : comps ≠ []) :
    ∃ R ws, upsert_components base comps blob mode = (.ok (Oid.tree R), ws) := by
  induction comps generalizing base with
  | nil => exact absurd rfl hne
  | cons x xs ih =>
    cases xs with
    | nil =>
      refine ⟨sortEntries (tbInsert (base.getD []) x blob mode),
        [Oid.tree (sortEntries (tbInsert (base.getD []) x blob mode))], ?_⟩
      simp [upsert_components, tbWrite]
    | cons y ys =>
      obtain ⟨R1, ws, h⟩ := ih (subtreeAtOpt base x) (by simp)
      refine ⟨sortEntries (tbInsert (base.getD []) x (Oid.tree R1) 16384),
        ws ++ [Oid.tree (sortEntries (tbInsert (base.getD []) x (Oid.tree R1) 16384))], ?_⟩
      simp [upsert_components, h, tbWrite]

/-- C1: For every base tree T, non-empty path P, blob id and mode, every
entry of T that is not on the root-to-leaf chain named by P appears in
the tree returned by the upsert engine with the same name, the same
target identity and the same mode as in T (assuming the spec's invariant
that entry names are unique in each tree along the chain). -/
theorem upsert_sibling_invariance (comps : List String) (T R : List Entry)
    (blob : Oid) (mode : Int) (hne : comps ≠ []) (hu : chainUniq T comps)
    (hrun : (upsert_components (some T) comps blob mode).1 = .ok (Oid.tree R)) :
    offChain T comps R := by
  induction comps generalizing T R with
  | nil => exact absurd rfl hne
  | cons x xs ih =>
    cases xs with
    | nil =>
      simp only [upsert_components, tbWrite, Option.getD_some] at hrun
      rw [Except.ok.injEq, Oid.tree.injEq] at hrun
      subst hrun
      simp only [offChain]
      intro e he hex
      exact mem_sortEntries.mpr (mem_tbInsert_of_ne he hex)
    | cons y ys =>
      simp only [chainUniq] at hu
      obtain ⟨huT, huSub⟩ := hu
      obtain ⟨R1, ws, hchild⟩ :=
        upsert_components_ok (y :: ys) (subtreeAt T x) blob mode (by simp)
      simp only [upsert_components, subtreeAtOpt, hchild, tbWrite,
        Option.getD_some] at hrun
      rw [Except.ok.injEq, Oid.tree.injEq] at hrun
      subst hrun
      have hmemR : (x, 16384, Oid.tree R1) ∈
          sortEntries (tbInsert T x (Oid.tree R1) 16384) :=
        mem_sortEntries.mpr (mem_tbInsert_self T x (Oid.tree R1) 16384)
      have huR : uniqNames (sortEntries (tbInsert T x (Oid.tree R1) 16384)) :=
        uniqNames_sortEntries (uniqNames_tbInsert x (Oid.tree R1) 16384 huT)
      have hsubR : subtreeAt (sortEntries (tbInsert T x (Oid.tree R1) 16384)) x =
          some R1 := by
        simp [subtreeAt, getName_eq_some_of_mem huR hmemR]
      simp only [offChain]
      constructor
      · intro e he hex
        exact mem_sortEntries.mpr (mem_tbInsert_of_ne he hex)
      · rw [hsubR]
        cases hS : subtreeAt T x with
        | none => exact trivial
        | some S =>
          rw [hS] at huSub
          rw [hS] at hchild
          exact ih S R1 (by simp) huSub (by rw [hchild])

theorem upsert_sibling_invariance_witness :
    offChain [("a.txt", 33188, Oid.blob 1)] ["b", "c.txt"]
      [("a.txt", 33188, Oid.blob 1),
       ("b", 16384, Oid.tree [("c.txt", 33188, Oid.blob 2)])] :=
  upsert_sibling_invariance ["b", "c.txt"] [("a.txt", 33188, Oid.blob 1)]
    [("a.txt", 33188, Oid.blob 1),
     ("b", 16384, Oid.tree [("c.txt", 33188, Oid.blob 2)])]
    (Oid.blob 2) 33188 (by simp)
    (by constructor
        · simp [uniqNames]
        · exact trivial)
    rfl

/-- C5: the leaf entry inserted by the operation carries mode
`0o100755` exactly when the source file's permission bits include an
execute bit, and `0o100644` otherwise; the upsert places that mode on
the leaf entry unchanged. -/
theorem leaf_mode_mapping (perm : Nat) (T R : List Entry) (name : String)
    (blob : Oid) (hu : uniqNames T)
    (hrun : (upsert_components (some T) [name] blob
      (filemode_of_permissions perm)).1 = .ok (Oid.tree R)) :
    getName R name = some (name, filemode_of_permissions perm, blob) ∧
    (filemode_of_permissions perm = 0o100755 ↔ perm &&& 0o111 ≠ 0) ∧
    (filemode_of_permissions perm = 0o100644 ↔ perm &&& 0o111 = 0) := by
  have hR : R = sortEntries (tbInsert T name blob (filemode_of_permissions perm)) := by
    simp only [upsert_components, tbWrite, Option.getD_some] at hrun
    rw [Except.ok.injEq, Oid.tree.injEq] at hrun
    exact hrun.symm
  subst hR
  refine ⟨?_, ?_, ?_⟩
  · exact getName_eq_some_of_mem
      (uniqNames_sortEntries (uniqNames_tbInsert name blob _ hu))
      (mem_sortEntries.mpr (mem_tbInsert_self T name blob _))
  · unfold filemode_of_permissions
    by_cases h : perm &&& 0o111 = 0 <;> simp [h]
  · unfold filemode_of_permissions
    by_cases h : perm &&& 0o111 = 0 <;> simp [h]

theorem leaf_mode_mapping_witness :
    getName [("tool.sh", 33261, Oid.blob 7)] "tool.sh" =
      some ("tool.sh", filemode_of_permissions 0o744, Oid.blob 7) ∧
    (filemode_of_permissions 0o744 = 0o100755 ↔ (0o744 : Nat) &&& 0o111 ≠ 0) ∧
    (filemode_of_permissions 0o744 = 0o100644 ↔ (0o744 : Nat) &&& 0o111 = 0) :=
  leaf_mode_mapping 0o744 [] [("tool.sh", 33261, Oid.blob 7)] "tool.sh"
    (Oid.blob 7) (by simp [uniqNames]) rfl

/-- C7: on an empty component sequence the engine fails with the
empty-path error and writes no tree object (the write log is empty). -/
theorem upsert_empty_path (base : Option (List Entry)) (T : List Entry)
    (blob : Oid) (mode : Int) :
    upsert_path_into_tree T [] blob mode = (.error "Empty path", []) ∧
    upsert_components base [] blob mode = (.error "No components", []) :=
  ⟨rfl, rfl⟩

/-- C10: at the leaf level the engine unconditionally upserts the blob
entry under the final component name: the entry of that name found in
the result is the new blob entry, and any previously existing entry of
that name — blob or whole subtree — survives only if it coincides with
the new entry. -/
theorem leaf_overwrite (T R : List Entry) (name : String) (blob : Oid)
    (mode : Int) (e0 : Entry) (hu : uniqNames T) (he : e0 ∈ T)
    (hn : e0.1 = name)
    (hrun : (upsert_components (some T) [name] blob mode).1 = .ok (Oid.tree R)) :
    getName R name = some (name, mode, blob) ∧
    (e0 ∈ R → e0 = (name, mode, blob)) := by
  have hR : R = sortEntries (tbInsert T name blob mode) := by
    simp only [upsert_components, tbWrite, Option.getD_some] at hrun
    rw [Except.ok.injEq, Oid.tree.injEq] at hrun
    exact hrun.symm
  subst hR
  refine ⟨?_, fun hmem => ?_⟩
  · exact getName_eq_some_of_mem
      (uniqNames_sortEntries (uniqNames_tbInsert name blob mode hu))
      (mem_sortEntries.mpr (mem_tbInsert_self T name blob mode))
  · exact eq_of_mem_tbInsert_name hu (mem_sortEntries.mp hmem) hn

theorem leaf_overwrite_witness :
    getName [("d", 33188, Oid.blob 9)] "d" = some ("d", 33188, Oid.blob 9) ∧
    (("d", (16384 : Int), Oid.tree [("x", 33188, Oid.blob 5)]) ∈
        ([("d", 33188, Oid.blob 9)] : List Entry) →
      ("d", (16384 : Int), Oid.tree [("x", 33188, Oid.blob 5)]) =
        ("d", (33188 : Int), Oid.blob 9)) :=
  leaf_overwrite [("d", 16384, Oid.tree [("x", 33188, Oid.blob 5)])]
    [("d", 33188, Oid.blob 9)] "d" (Oid.blob 9) 33188
    ("d", 16384, Oid.tree [("x", 33188, Oid.blob 5)])
    (by simp [uniqNames]) (by simp) rfl rfl

/-- C6: with more than one remaining component the recursion descends
into the existing same-named subtree when the base entry exists and is a
tree, and into an empty base in every other case (entry absent, or
present but a blob), rebuilding the current level around the child's
result at directory mode. -/
theorem upsert_descent (T : List Entry) (name : String) (rest : List String)
    (blob : Oid) (mode : Int) (hrest : rest ≠ []) :
    (upsert_components (some T) (name :: rest) blob mode =
      match upsert_components (subtreeAt T name) rest blob mode with
      | (.ok child, ws) =>
        (.ok (tbWrite (tbInsert T name child 16384)),
          ws ++ [tbWrite (tbInsert T name child 16384)])
      | (.error e, ws) => (.error e, ws)) ∧
    (∀ e S, getName T name = some e → e.2.2 = Oid.tree S →
      subtreeAt T name = some S) ∧
    (getName T name = none → subtreeAt T name = none) ∧
    (∀ e d, getName T name = some e → e.2.2 = Oid.blob d →
      subtreeAt T name = none) := by
  refine ⟨?_, ?_, ?_, ?_⟩
  · cases rest with
    | nil => exact absurd rfl hrest
    | cons y ys =>
      simp only [upsert_components, subtreeAtOpt, Option.getD_some]
      cases hsc : upsert_components (subtreeAt T name) (y :: ys) blob mode with
      | mk r ws => cases r <;> simp
  · intro e S hg hS
    simp [subtreeAt, hg, hS]
  · intro hg
    simp [subtreeAt, hg]
  · intro e d hg hd
    simp [subtreeAt, hg, hd]

theorem upsert_descent_witness :
    (upsert_components (some [("f", 33188, Oid.blob 3)]) ["f", "g"]
        (Oid.blob 4) 33188 =
      match upsert_components (subtreeAt [("f", 33188, Oid.blob 3)] "f") ["g"]
          (Oid.blob 4) 33188 with
      | (.ok child, ws) =>
        (.ok (tbWrite (tbInsert [("f", 33188, Oid.blob 3)] "f" child 16384)),
          ws ++ [tbWrite (tbInsert [("f", 33188, Oid.blob 3)] "f" child 16384)])
      | (.error e, ws) => (.error e, ws)) ∧
    subtreeAt [("f", 33188, Oid.blob 3)] "f" = none :=
  ⟨(upsert_descent [("f", 33188, Oid.blob 3)] "f" ["g"] (Oid.blob 4) 33188
      (by simp)).1,
   (upsert_descent [("f", 33188, Oid.blob 3)] "f" ["g"] (Oid.blob 4) 33188
      (by simp)).2.2.2 ("f", 33188, Oid.blob 3) 3 rfl rfl⟩

theorem lookupRef_setRef (repo : RepoState) (branch : String) (c : Commit) :
    lookupRef (setRef repo branch c).localRefs branch = some c := by
  simp [lookupRef, setRef, List.find?]

/-- C3: when the branch has no local ref, no remote-tracking ref is
usable (absent, or tracking not requested) and the confirmation
capability declines, resolution fails with `BranchNotFound` and the
whole operation fails likewise, with the ref state returned unchanged:
no branch ref is created or moved. -/
theorem branch_not_found_no_ref_change (repo : RepoState) (branch : String)
    (track_remote : Bool) (comps : List String) (blobOid : Oid) (perm : Nat)
    (msgOpt : Option String) (pushFlag pushOk : Bool)
    (repoCfg globalCfg : GitConfig) (timestamp : Int)
    (hlocal : lookupRef repo.localRefs branch = none)
    (hremote : track_remote = true → lookupRef repo.remoteRefs branch = none) :
    ensure_branch_base repo branch track_remote false =
      (.error .BranchNotFound, repo) ∧
    commit_to_branch repo branch comps blobOid perm msgOpt pushFlag track_remote
      false pushOk repoCfg globalCfg timestamp =
      (.error .BranchNotFound, repo) := by
  have hE : ensure_branch_base repo branch track_remote false =
      (.error .BranchNotFound, repo) := by
    unfold ensure_branch_base
    rw [hlocal]
    cases track_remote with
    | false => simp
    | true => simp [hremote rfl]
  refine ⟨hE, ?_⟩
  unfold commit_to_branch
  rw [hE]

theorem branch_not_found_no_ref_change_witness :
    (ensure_branch_base sampleRepo "feature" true false =
      (.error .BranchNotFound, sampleRepo) ∧
    commit_to_branch sampleRepo "feature" ["b", "c.txt"] (Oid.blob 2) 420
      none false true false false sampleCfg sampleCfg 99 =
      (.error .BranchNotFound, sampleRepo)) :=
  branch_not_found_no_ref_change sampleRepo "feature" true ["b", "c.txt"]
    (Oid.blob 2) 420 none false false sampleCfg sampleCfg 99 rfl (fun _ => rfl)

/-- C4: when the branch has no local ref, tracking is requested and the
remote-tracking ref points at commit X, resolution creates a local
branch ref pointing at X and returns X with X's tree as the base. -/
theorem track_remote_creates_local (repo : RepoState) (branch : String)
    (X : Commit) (confirm : Bool)
    (hlocal : lookupRef repo.localRefs branch = none)
    (hremote : lookupRef repo.remoteRefs branch = some X) :
    ensure_branch_base repo branch true confirm =
      (.ok (X, X.tree), setRef repo branch X) ∧
    lookupRef (setRef repo branch X).localRefs branch = some X := by
  constructor
  · unfold ensure_branch_base
    rw [hlocal]
    simp [hremote]
  · exact lookupRef_setRef repo branch X

theorem track_remote_creates_local_witness :
    (ensure_branch_base sampleRepoWithRemote "feature" true false =
      (.ok (sampleHead, sampleHead.tree), setRef sampleRepoWithRemote "feature" sampleHead) ∧
    lookupRef (setRef sampleRepoWithRemote "feature" sampleHead).localRefs "feature" =
      some sampleHead) :=
  track_remote_creates_local sampleRepoWithRemote "feature" sampleHead false rfl rfl

/-- C2: the upsert pipeline is deterministic in the tree it produces:
two runs on the same base, path, blob and mode yield the same resulting
tree identity, whatever commit message and timestamp the rest of the
operation uses. -/
theorem upsert_determinism (repo : RepoState) (branch : String)
    (comps : List String) (blobOid : Oid) (perm : Nat)
    (msg1 msg2 : Option String) (ts1 ts2 : Int)
    (pushFlag track_remote confirm pushOk : Bool)
    (repoCfg globalCfg : GitConfig) (c1 c2 : Commit)
    (h1 : (commit_to_branch repo branch comps blobOid perm msg1 pushFlag
        track_remote confirm pushOk repoCfg globalCfg ts1).1 = .ok c1)
    (h2 : (commit_to_branch repo branch comps blobOid perm msg2 pushFlag
        track_remote confirm pushOk repoCfg globalCfg ts2).1 = .ok c2) :
    c1.tree = c2.tree := by
  unfold commit_to_branch at h1 h2
  cases hE : ensure_branch_base repo branch track_remote confirm with
  | mk res r1 =>
    rw [hE] at h1 h2
    cases res with
    | error e => simp at h1
    | ok pt =>
      obtain ⟨parentC, parentT⟩ := pt
      simp only [] at h1 h2
      cases hU : upsert_path_into_tree (oidEntries parentT) comps blobOid
          (filemode_of_permissions perm) with
      | mk ur ws =>
        rw [hU] at h1 h2
        cases ur with
        | error e => simp at h1
        | ok newT =>
          cases hN : git_user_name repoCfg globalCfg with
          | error e =>
            rw [hN] at h1
            simp at h1
          | ok uname =>
            cases hM : git_user_email repoCfg globalCfg with
            | error e =>
              rw [hN, hM] at h1
              simp at h1
            | ok uemail =>
              rw [hN, hM] at h1 h2
              simp only [] at h1 h2
              by_cases hp : (pushFlag && !pushOk) = true
              · rw [if_pos hp] at h1
                simp at h1
              · rw [if_neg hp] at h1 h2
                simp only [Prod.fst] at h1 h2
                rw [Except.ok.injEq] at h1 h2
                rw [← h1, ← h2]
                rfl

theorem upsert_path_ok (T : List Entry) (comps : List String) (blob : Oid)
    (mode : Int) (hne : comps ≠ []) :
    ∃ R ws, upsert_path_into_tree T comps blob mode = (.ok (Oid.tree R), ws) := by
  obtain ⟨R, ws, h⟩ := upsert_components_ok comps (some T) blob mode hne
  refine ⟨R, ws, ?_⟩
  unfold upsert_path_into_tree
  cases comps with
  | nil => exact absurd rfl hne
  | cons x xs => simpa using h

theorem commit_to_branch_after_base (repo r1 : RepoState) (branch : String)
    (comps : List String) (blobOid : Oid) (perm : Nat) (msgOpt : Option String)
    (pushFlag track_remote confirm pushOk : Bool)
    (repoCfg globalCfg : GitConfig) (timestamp : Int)
    (parentC : Commit) (parentT newT : Oid) (ws : List Oid)
    (hE : ensure_branch_base repo branch track_remote confirm =
      (.ok (parentC, parentT), r1))
    (hU : upsert_path_into_tree (oidEntries parentT) comps blobOid
      (filemode_of_permissions perm) = (.ok newT, ws)) :
    commit_to_branch repo branch comps blobOid perm msgOpt pushFlag track_remote
        confirm pushOk repoCfg globalCfg timestamp =
      match git_user_name repoCfg globalCfg, git_user_email repoCfg globalCfg with
      | .error e, _ => (.error e, r1)
      | .ok _, .error e => (.error e, r1)
      | .ok uname, .ok uemail =>
        if pushFlag && !pushOk then
          (.error .PushFailure,
            setRef r1 branch (Commit.mk newT [parentC] uname uemail uname uemail
              (msgOpt.getD ("Update " ++ String.intercalate "/" comps)) timestamp))
        else
          (.ok (Commit.mk newT [parentC] uname uemail uname uemail
              (msgOpt.getD ("Update " ++ String.intercalate "/" comps)) timestamp),
            setRef r1 branch (Commit.mk newT [parentC] uname uemail uname uemail
              (msgOpt.getD ("Update " ++ String.intercalate "/" comps)) timestamp)) := by
  unfold commit_to_branch
  rw [hE]
  simp only []
  rw [hU]

/-- C8: with the push flag set, when the local commit succeeds but the
external push reports failure, the operation returns `PushFailure` while
the new commit exists and the local branch ref already points at it: the
push failure undoes neither the commit nor the ref advancement. -/
theorem push_failure_keeps_commit (repo r1 : RepoState) (branch : String)
    (comps : List String) (blobOid : Oid) (perm : Nat) (msgOpt : Option String)
    (track_remote confirm : Bool) (repoCfg globalCfg : GitConfig)
    (timestamp : Int) (parentC : Commit) (parentT : Oid) (uname uemail : String)
    (hE : ensure_branch_base repo branch track_remote confirm =
      (.ok (parentC, parentT), r1))
    (hN : git_user_name repoCfg globalCfg = .ok uname)
    (hM : git_user_email repoCfg globalCfg = .ok uemail)
    (newT : List Entry) (ws : List Oid)
    (hU : upsert_path_into_tree (oidEntries parentT) comps blobOid
      (filemode_of_permissions perm) = (.ok (Oid.tree newT), ws)) :
    commit_to_branch repo branch comps blobOid perm msgOpt true track_remote
        confirm false repoCfg globalCfg timestamp =
      (.error .PushFailure,
        setRef r1 branch
          (Commit.mk (Oid.tree newT) [parentC] uname uemail uname uemail
            (msgOpt.getD ("Update " ++ String.intercalate "/" comps)) timestamp)) ∧
    lookupRef (setRef r1 branch
        (Commit.mk (Oid.tree newT) [parentC] uname uemail uname uemail
          (msgOpt.getD ("Update " ++ String.intercalate "/" comps))
          timestamp)).localRefs branch =
      some (Commit.mk (Oid.tree newT) [parentC] uname uemail uname uemail
        (msgOpt.getD ("Update " ++ String.intercalate "/" comps)) timestamp) := by
  refine ⟨?_, lookupRef_setRef _ _ _⟩
  rw [commit_to_branch_after_base repo r1 branch comps blobOid perm msgOpt true
    track_remote confirm false repoCfg globalCfg timestamp parentC parentT
    (Oid.tree newT) ws hE hU]
  rw [hN, hM]
  rfl

/-- C9: once the branch base is resolved and the path is non-empty (the
stages preceding identity resolution), the operation fails with
`IdentityMissing` exactly when the author name or the author email is
absent from both the repository-scoped and the global configuration;
on success the new commit's author and committer are identical and are
the values resolved from that configuration. -/
theorem identity_missing_iff (repo r1 : RepoState) (branch : String)
    (comps : List String) (blobOid : Oid) (perm : Nat) (msgOpt : Option String)
    (pushFlag track_remote confirm pushOk : Bool)
    (repoCfg globalCfg : GitConfig) (timestamp : Int)
    (parentC : Commit) (parentT : Oid)
    (hE : ensure_branch_base repo branch track_remote confirm =
      (.ok (parentC, parentT), r1))
    (hcomps : comps ≠ []) :
    (git_user_name repoCfg globalCfg = .error .IdentityMissing ↔
      repoCfg.userName = none ∧ globalCfg.userName = none) ∧
    (git_user_email repoCfg globalCfg = .error .IdentityMissing ↔
      repoCfg.userEmail = none ∧ globalCfg.userEmail = none) ∧
    ((commit_to_branch repo branch comps blobOid perm msgOpt pushFlag
        track_remote confirm pushOk repoCfg globalCfg timestamp).1 =
        .error .IdentityMissing ↔
      ((repoCfg.userName = none ∧ globalCfg.userName = none) ∨
        (repoCfg.userEmail = none ∧ globalCfg.userEmail = none))) ∧
    (∀ c, (commit_to_branch repo branch comps blobOid perm msgOpt pushFlag
        track_remote confirm pushOk repoCfg globalCfg timestamp).1 = .ok c →
      c.authorName = c.committerName ∧ c.authorEmail = c.committerEmail ∧
      git_user_name repoCfg globalCfg = .ok c.authorName ∧
      git_user_email repoCfg globalCfg = .ok c.authorEmail) := by
  obtain ⟨newT, ws, hU⟩ := upsert_path_ok (oidEntries parentT) comps blobOid
    (filemode_of_permissions perm) hcomps
  have hP := commit_to_branch_after_base repo r1 branch comps blobOid perm
    msgOpt pushFlag track_remote confirm pushOk repoCfg globalCfg timestamp
    parentC parentT (Oid.tree newT) ws hE hU
  refine ⟨?_, ?_, ?_, ?_⟩
  · cases hrn : repoCfg.userName <;> cases hgn : globalCfg.userName <;>
      simp [git_user_name, hrn, hgn]
  · cases hre : repoCfg.userEmail <;> cases hge : globalCfg.userEmail <;>
      simp [git_user_email, hre, hge]
  · rw [hP]
    cases hrn : repoCfg.userName <;> cases hgn : globalCfg.userName <;>
      cases hre : repoCfg.userEmail <;> cases hge : globalCfg.userEmail <;>
      simp [git_user_name, git_user_email, hrn, hgn, hre, hge] <;>
      (cases pushFlag <;> cases pushOk <;> simp)
  · intro c hc
    rw [hP] at hc
    cases hN : git_user_name repoCfg globalCfg with
    | error e =>
      rw [hN] at hc
      simp at hc
    | ok uname =>
      cases hM : git_user_email repoCfg globalCfg with
      | error e =>
        rw [hN, hM] at hc
        simp at hc
      | ok uemail =>
        rw [hN, hM] at hc
        cases pushFlag <;> cases pushOk <;> simp at hc <;>
          (subst hc
           simp [Commit.authorName, Commit.authorEmail, Commit.committerName,
             Commit.committerEmail, hN, hM])

theorem upsert_determinism_witness :
    (Commit.mk (Oid.tree [("a.txt", 33188, Oid.blob 1),
        ("b", 16384, Oid.tree [("c.txt", 33188, Oid.blob 2)])])
      [sampleHead] "Ada" "ada@example.org" "Ada" "ada@example.org" "one" 1).tree =
    (Commit.mk (Oid.tree [("a.txt", 33188, Oid.blob 1),
        ("b", 16384, Oid.tree [("c.txt", 33188, Oid.blob 2)])])
      [sampleHead] "Ada" "ada@example.org" "Ada" "ada@example.org" "two" 2).tree :=
  upsert_determinism sampleRepoWithLocal "main" ["b", "c.txt"] (Oid.blob 2) 420
    (some "one") (some "two") 1 2 false false false false sampleCfg sampleCfg
    (Commit.mk (Oid.tree [("a.txt", 33188, Oid.blob 1),
        ("b", 16384, Oid.tree [("c.txt", 33188, Oid.blob 2)])])
      [sampleHead] "Ada" "ada@example.org" "Ada" "ada@example.org" "one" 1)
    (Commit.mk (Oid.tree [("a.txt", 33188, Oid.blob 1),
        ("b", 16384, Oid.tree [("c.txt", 33188, Oid.blob 2)])])
      [sampleHead] "Ada" "ada@example.org" "Ada" "ada@example.org" "two" 2)
    rfl rfl

theorem push_failure_keeps_commit_witness :
    commit_to_branch sampleRepoWithLocal "main" ["b", "c.txt"] (Oid.blob 2) 420
        (some "fix") true false false false sampleCfg sampleCfg 7 =
      (.error .PushFailure,
        setRef sampleRepoWithLocal "main"
          (Commit.mk (Oid.tree [("a.txt", 33188, Oid.blob 1),
              ("b", 16384, Oid.tree [("c.txt", 33188, Oid.blob 2)])])
            [sampleHead] "Ada" "ada@example.org" "Ada" "ada@example.org" "fix" 7)) ∧
    lookupRef (setRef sampleRepoWithLocal "main"
        (Commit.mk (Oid.tree [("a.txt", 33188, Oid.blob 1),
            ("b", 16384, Oid.tree [("c.txt", 33188, Oid.blob 2)])])
          [sampleHead] "Ada" "ada@example.org" "Ada" "ada@example.org"
          "fix" 7)).localRefs "main" =
      some (Commit.mk (Oid.tree [("a.txt", 33188, Oid.blob 1),
          ("b", 16384, Oid.tree [("c.txt", 33188, Oid.blob 2)])])
        [sampleHead] "Ada" "ada@example.org" "Ada" "ada@example.org" "fix" 7) :=
  push_failure_keeps_commit sampleRepoWithLocal sampleRepoWithLocal "main"
    ["b", "c.txt"] (Oid.blob 2) 420 (some "fix") false false sampleCfg sampleCfg
    7 sampleHead sampleHead.tree "Ada" "ada@example.org" rfl rfl rfl
    [("a.txt", 33188, Oid.blob 1),
     ("b", 16384, Oid.tree [("c.txt", 33188, Oid.blob 2)])]
    [Oid.tree [("c.txt", 33188, Oid.blob 2)],
     Oid.tree [("a.txt", 33188, Oid.blob 1),
       ("b", 16384, Oid.tree [("c.txt", 33188, Oid.blob 2)])]]
    rfl

theorem identity_missing_iff_witness :
    ((commit_to_branch sampleRepoWithLocal "main" ["b", "c.txt"] (Oid.blob 2) 420
        (some "m") false false false false sampleCfgNoName sampleCfg 3).1 =
        .error .IdentityMissing ↔
      ((sampleCfgNoName.userName = none ∧ sampleCfg.userName = none) ∨
        (sampleCfgNoName.userEmail = none ∧ sampleCfg.userEmail = none))) :=
  (identity_missing_iff sampleRepoWithLocal sampleRepoWithLocal "main"
    ["b", "c.txt"] (Oid.blob 2) 420 (some "m") false false false false
    sampleCfgNoName sampleCfg 3 sampleHead sampleHead.tree rfl (by simp)).2.2.1
